import Mathlib

/-!
Shallow embedding of the trie library in src/trie/src/lib.rs.

Strings are modelled as lists of characters. The Rust HashMap of children
is modelled as an association list in insertion order; `HashMap::entry(c)
.or_insert(fresh)` followed by descending into the (possibly fresh) child
is modelled by `setChild`, which replaces an existing binding in place or
appends a fresh one.

`match_off_by_one` contains an unsigned subtraction `val.len() - 1` that
underflows (panics under checked arithmetic) when `val` is empty and the
loop body that evaluates it is reached; the embedding returns
`Except.error ()` on that path and `Except.ok` for every normal return.
-/

set_option maxHeartbeats 1000000

namespace TrieLib

/-- A node of the trie: `val` is the character stored in the node,
`children` maps characters to child nodes, `leaf` is `Some s` when the
stored string `s` ends at this node (Rust struct `TrieNode`). -/
inductive TrieNode : Type where
  | mk (val : Char) (children : List (Char × TrieNode)) (leaf : Option (List Char)) : TrieNode

/-- The character stored in a node. -/
def TrieNode.val : TrieNode → Char
  | .mk v _ _ => v

/-- The child map of a node, as an association list. -/
def TrieNode.children : TrieNode → List (Char × TrieNode)
  | .mk _ ch _ => ch

/-- The optional stored string ending at this node. -/
def TrieNode.leaf : TrieNode → Option (List Char)
  | .mk _ _ lf => lf

/-- Lookup of `HashMap::get` on the association list of children. -/
def lookupChild : List (Char × TrieNode) → Char → Option TrieNode
  | [], _ => none
  | (k, v) :: rest, c => if k = c then some v else lookupChild rest c

/-- Rebind key `c` to node `nd`: replace an existing binding in place,
or append a fresh binding (the net effect of `entry(c).or_insert(..)`
followed by mutation of the obtained node). -/
def setChild (c : Char) (nd : TrieNode) : List (Char × TrieNode) → List (Char × TrieNode)
  | [] => [(c, nd)]
  | (k, v) :: rest => if k = c then (c, nd) :: rest else (k, v) :: setChild c nd rest

/-- The fresh node created by `or_insert` for character `c`. -/
def newNode (c : Char) : TrieNode :=
  .mk c [] none

/-- The existing child for `c`, or the fresh node `or_insert` would create. -/
def childOr (ch : List (Char × TrieNode)) (c : Char) : TrieNode :=
  (lookupChild ch c).getD (newNode c)

/-- The loop of `Trie::insert`: walk the remaining characters `s`, creating
nodes as needed, and set the `leaf` of the final node to the full string. -/
def TrieNode.insertAux (full : List Char) : List Char → TrieNode → TrieNode
  | [], .mk v ch _ => .mk v ch (some full)
  | c :: cs, .mk v ch lf =>
      .mk v (setChild c (TrieNode.insertAux full cs (childOr ch c)) ch) lf

/-- Walk from `n` consuming the characters of the path; `none` as soon as a
required edge is missing (loop of `Trie::contains`). -/
def nodeAt : TrieNode → List Char → Option TrieNode
  | n, [] => some n
  | n, c :: cs =>
      match lookupChild n.children c with
      | some child => nodeAt child cs
      | none => none

/-- Greedy walk from `n`: consume characters while the edge exists, stop at
the first missing edge; returns the matched characters and the node reached
(phase 1 of `match_off_by_one`, and the inner suffix loop of phase 2). -/
def descend : TrieNode → List Char → List Char × TrieNode
  | n, [] => ([], n)
  | n, c :: cs =>
      match lookupChild n.children c with
      | some child =>
          let pm := descend child cs
          (c :: pm.1, pm.2)
      | none => ([], n)

/-- Phase 2 of `match_off_by_one`: try each child of the divergence node in
order; for each, greedily match `rem` (the query after the skipped
position) below the child, and succeed when the matched lengths add up to
`vlen - 1`. Evaluating `vlen - 1` when `vlen = 0` is the unsigned
underflow, modelled as `Except.error ()`. -/
def scanChildren : List (Char × TrieNode) → Nat → List Char → Nat → List Char →
    Except Unit (Option (List Char))
  | [], _, _, _, _ => Except.ok none
  | (_, child) :: others, plen, rem, vlen, pre =>
      if vlen = 0 then Except.error ()
      else
        let suf := (descend child rem).1
        if plen + suf.length = vlen - 1 then Except.ok (some (pre ++ suf))
        else scanChildren others plen rem vlen pre

/-- The trie: one root node with no character value (Rust struct `Trie`). -/
structure Trie : Type where
  root : TrieNode

/-- Rust `Trie::new`: an empty trie. -/
def Trie.new : Trie :=
  ⟨.mk (Char.ofNat 0) [] none⟩

/-- Rust `Trie::insert`. -/
def Trie.insert (t : Trie) (val : List Char) : Trie :=
  ⟨TrieNode.insertAux val val t.root⟩

/-- Rust `Trie::contains`: the node reached by consuming `val` from the root. -/
def Trie.contains (t : Trie) (val : List Char) : Option TrieNode :=
  nodeAt t.root val

/-- Rust `Trie::match_off_by_one`. -/
def Trie.matchOffByOne (t : Trie) (val : List Char) : Except Unit (Option (List Char)) :=
  let pc := descend t.root val
  scanChildren pc.2.children pc.1.length (val.drop (pc.1.length + 1)) val.length pc.1

/-- The stored string, if any, at the end of the walk of `val`: what a
caller of `contains` reads from the `leaf` of the returned node. -/
def leafAt (t : Trie) (val : List Char) : Option (List Char) :=
  (t.contains val).bind TrieNode.leaf

/-- The trie built by inserting the given strings in order into an empty
trie (the way every caller in the repository builds one). -/
def built (ls : List (List Char)) : Trie :=
  ls.foldl Trie.insert Trie.new

/-- Node-level version of `leafAt`. -/
def nodeLeafAt (n : TrieNode) (val : List Char) : Option (List Char) :=
  (nodeAt n val).bind TrieNode.leaf

end TrieLib

namespace TrieLib

/-! ### Association-list lemmas -/

theorem lookup_setChild_same (c : Char) (nd : TrieNode) (l : List (Char × TrieNode)) :
    lookupChild (setChild c nd l) c = some nd := by
  induction l with
  | nil => simp [setChild, lookupChild]
  | cons kv rest ih =>
      obtain ⟨k, v⟩ := kv
      by_cases hk : k = c
      · simp [setChild, hk, lookupChild]
      · simp [setChild, hk, lookupChild, ih]

theorem lookup_setChild_other (c d : Char) (nd : TrieNode) (l : List (Char × TrieNode))
    (h : d ≠ c) : lookupChild (setChild c nd l) d = lookupChild l d := by
  induction l with
  | nil => simp [setChild, lookupChild, Ne.symm h]
  | cons kv rest ih =>
      obtain ⟨k, v⟩ := kv
      by_cases hk : k = c
      · subst hk
        simp [setChild, lookupChild, Ne.symm h]
      · simp [setChild, hk, lookupChild, ih]

theorem setChild_setChild (c : Char) (a b : TrieNode) (l : List (Char × TrieNode)) :
    setChild c a (setChild c b l) = setChild c a l := by
  induction l with
  | nil => simp [setChild]
  | cons kv rest ih =>
      obtain ⟨k, v⟩ := kv
      by_cases hk : k = c
      · simp [setChild, hk]
      · simp [setChild, hk, ih]

/-! ### What `insert` does to every lookup path -/

theorem nodeLeafAt_newNode (a : Char) (w : List Char) :
    nodeLeafAt (newNode a) w = none := by
  cases w with
  | nil => rfl
  | cons c cs => rfl

theorem nodeLeafAt_cons_some {n m : TrieNode} {c : Char} (cs : List Char)
    (h : lookupChild n.children c = some m) :
    nodeLeafAt n (c :: cs) = nodeLeafAt m cs := by
  simp [nodeLeafAt, nodeAt, h]

theorem nodeLeafAt_cons_none {n : TrieNode} {c : Char} (cs : List Char)
    (h : lookupChild n.children c = none) :
    nodeLeafAt n (c :: cs) = none := by
  simp [nodeLeafAt, nodeAt, h]

theorem nodeLeafAt_insertAux (s : List Char) :
    ∀ (n : TrieNode) (w full : List Char),
      nodeLeafAt (TrieNode.insertAux full s n) w =
        if w = s then some full else nodeLeafAt n w := by
  induction s with
  | nil =>
      intro n w full
      obtain ⟨v, ch, lf⟩ := n
      cases w with
      | nil => simp [TrieNode.insertAux, nodeLeafAt, nodeAt, TrieNode.leaf]
      | cons c cs =>
          rw [if_neg (List.cons_ne_nil c cs)]
          cases hl : lookupChild ch c with
          | none =>
              rw [nodeLeafAt_cons_none cs (show lookupChild (TrieNode.insertAux full []
                (TrieNode.mk v ch lf)).children c = none from hl)]
              rw [nodeLeafAt_cons_none cs (show lookupChild (TrieNode.mk v ch lf).children c
                = none from hl)]
          | some child =>
              rw [nodeLeafAt_cons_some cs (show lookupChild (TrieNode.insertAux full []
                (TrieNode.mk v ch lf)).children c = some child from hl)]
              rw [nodeLeafAt_cons_some cs (show lookupChild (TrieNode.mk v ch lf).children c
                = some child from hl)]
  | cons a as ih =>
      intro n w full
      obtain ⟨v, ch, lf⟩ := n
      cases w with
      | nil =>
          rw [if_neg (Ne.symm (List.cons_ne_nil a as))]
          rfl
      | cons c cs =>
          by_cases hc : c = a
          · subst hc
            have hlook : lookupChild (TrieNode.insertAux full (c :: as)
                (TrieNode.mk v ch lf)).children c
                = some (TrieNode.insertAux full as (childOr ch c)) :=
              lookup_setChild_same c _ ch
            rw [nodeLeafAt_cons_some cs hlook, ih]
            by_cases hcs : cs = as
            · subst hcs
              simp
            · rw [if_neg hcs, if_neg (by simp [hcs])]
              cases hl : lookupChild ch c with
              | none =>
                  rw [nodeLeafAt_cons_none cs (show lookupChild (TrieNode.mk v ch lf).children c
                    = none from hl)]
                  simp [childOr, hl, nodeLeafAt_newNode]
              | some child =>
                  rw [nodeLeafAt_cons_some cs (show lookupChild (TrieNode.mk v ch lf).children c
                    = some child from hl)]
                  simp [childOr, hl]
          · have hlook : lookupChild (TrieNode.insertAux full (a :: as)
                (TrieNode.mk v ch lf)).children c = lookupChild ch c :=
              lookup_setChild_other a c _ ch hc
            rw [if_neg (by simp [hc])]
            cases hl : lookupChild ch c with
            | none =>
                rw [nodeLeafAt_cons_none cs (hlook.trans hl)]
                rw [nodeLeafAt_cons_none cs (show lookupChild (TrieNode.mk v ch lf).children c
                  = none from hl)]
            | some child =>
                rw [nodeLeafAt_cons_some cs (hlook.trans hl)]
                rw [nodeLeafAt_cons_some cs (show lookupChild (TrieNode.mk v ch lf).children c
                  = some child from hl)]

/-! ### Trie-level consequences of insertion -/

theorem leafAt_insert (t : Trie) (s w : List Char) :
    leafAt (t.insert s) w = if w = s then some s else leafAt t w :=
  nodeLeafAt_insertAux s t.root w s

theorem leafAt_new (w : List Char) : leafAt Trie.new w = none := by
  cases w with
  | nil => rfl
  | cons c cs => rfl

theorem leafAt_foldl_mem (ls : List (List Char)) :
    ∀ (t : Trie) (s : List Char), s ∈ ls ∨ leafAt t s = some s →
      leafAt (ls.foldl Trie.insert t) s = some s := by
  induction ls with
  | nil =>
      intro t s h
      cases h with
      | inl h => cases h
      | inr h => exact h
  | cons x xs ih =>
      intro t s h
      rw [List.foldl_cons]
      apply ih
      by_cases hx : s = x
      · subst hx
        right
        rw [leafAt_insert, if_pos rfl]
      · cases h with
        | inl h =>
            cases h with
            | head => exact absurd rfl hx
            | tail _ hmem => exact Or.inl hmem
        | inr h =>
            right
            rw [leafAt_insert, if_neg hx]
            exact h

theorem leafAt_built_mem (ls : List (List Char)) (s : List Char) (h : s ∈ ls) :
    leafAt (built ls) s = some s :=
  leafAt_foldl_mem ls Trie.new s (Or.inl h)

theorem leafAt_foldl_inv (ls : List (List Char)) :
    ∀ (t : Trie) (w v : List Char), leafAt (ls.foldl Trie.insert t) w = some v →
      leafAt t w = some v ∨ (w ∈ ls ∧ v = w) := by
  induction ls with
  | nil =>
      intro t w v h
      exact Or.inl h
  | cons x xs ih =>
      intro t w v h
      rw [List.foldl_cons] at h
      cases ih (t.insert x) w v h with
      | inl h2 =>
          rw [leafAt_insert] at h2
          by_cases hx : w = x
          · rw [if_pos hx] at h2
            right
            constructor
            · rw [hx]
              exact List.mem_cons_self x xs
            · rw [hx]
              exact (Option.some_inj.mp h2).symm
          · rw [if_neg hx] at h2
            exact Or.inl h2
      | inr h2 => exact Or.inr ⟨List.mem_cons_of_mem x h2.1, h2.2⟩

theorem leafAt_some_node (t : Trie) (w v : List Char) (h : leafAt t w = some v) :
    ∃ n, t.contains w = some n ∧ n.leaf = some v :=
  Option.bind_eq_some.mp h

/-! ### Idempotence of insertion -/

theorem insertAux_insertAux (s : List Char) :
    ∀ (full : List Char) (n : TrieNode),
      TrieNode.insertAux full s (TrieNode.insertAux full s n) =
        TrieNode.insertAux full s n := by
  induction s with
  | nil =>
      intro full n
      obtain ⟨v, ch, lf⟩ := n
      rfl
  | cons c cs ih =>
      intro full n
      obtain ⟨v, ch, lf⟩ := n
      show TrieNode.mk v (setChild c (TrieNode.insertAux full cs
          (childOr (setChild c (TrieNode.insertAux full cs (childOr ch c)) ch) c))
          (setChild c (TrieNode.insertAux full cs (childOr ch c)) ch)) lf
        = TrieNode.mk v (setChild c (TrieNode.insertAux full cs (childOr ch c)) ch) lf
      rw [show childOr (setChild c (TrieNode.insertAux full cs (childOr ch c)) ch) c
            = TrieNode.insertAux full cs (childOr ch c) by
          simp [childOr, lookup_setChild_same]]
      rw [ih, setChild_setChild]

theorem insert_insert (t : Trie) (s : List Char) :
    (t.insert s).insert s = t.insert s :=
  congrArg Trie.mk (insertAux_insertAux s s t.root)

/-! ### The terminal marker of the root node -/

theorem root_leaf_insert (t : Trie) (c : Char) (cs : List Char) :
    ((t.insert (c :: cs)).root).leaf = t.root.leaf := by
  obtain ⟨r⟩ := t
  obtain ⟨v, ch, lf⟩ := r
  rfl

theorem root_leaf_foldl (ls : List (List Char)) :
    ∀ t : Trie, (∀ s ∈ ls, s ≠ []) → t.root.leaf = none →
      ((ls.foldl Trie.insert t).root).leaf = none := by
  induction ls with
  | nil =>
      intro t _ h0
      exact h0
  | cons x xs ih =>
      intro t hne h0
      rw [List.foldl_cons]
      refine ih (t.insert x) (fun s hs => hne s (List.mem_cons_of_mem x hs)) ?_
      cases x with
      | nil => exact absurd rfl (hne [] (List.mem_cons_self [] xs))
      | cons c cs => rw [root_leaf_insert, h0]

/-! ### The greedy walk of phase 1 -/

theorem descend_of_nodeAt (s : List Char) :
    ∀ (n m : TrieNode), nodeAt n s = some m → descend n s = (s, m) := by
  induction s with
  | nil =>
      intro n m h
      rw [descend]
      exact congrArg (Prod.mk []) (Option.some_inj.mp h)
  | cons c cs ih =>
      intro n m h
      cases hl : lookupChild n.children c with
      | none =>
          rw [nodeAt, hl] at h
          cases h
      | some child =>
          simp only [nodeAt, hl] at h
          simp only [descend, hl]
          rw [ih child m h]

theorem descend_fst_take (s : List Char) :
    ∀ n : TrieNode, (descend n s).1 = s.take (descend n s).1.length := by
  induction s with
  | nil =>
      intro n
      rfl
  | cons c cs ih =>
      intro n
      cases hl : lookupChild n.children c with
      | none => simp [descend, hl]
      | some child =>
          simp only [descend, hl]
          rw [List.length_cons, List.take_succ_cons]
          rw [← ih child]

theorem descend_fst_length_le (s : List Char) :
    ∀ n : TrieNode, (descend n s).1.length ≤ s.length := by
  induction s with
  | nil =>
      intro n
      exact Nat.le_refl 0
  | cons c cs ih =>
      intro n
      cases hl : lookupChild n.children c with
      | none =>
          simp only [descend, hl]
          exact Nat.zero_le _
      | some child =>
          simp only [descend, hl]
          rw [List.length_cons, List.length_cons]
          exact Nat.succ_le_succ (ih child)

/-! ### The child scan of phase 2 -/

theorem scanChildren_self (kids : List (Char × TrieNode)) (m : Nat) (pre : List Char)
    (hm : m ≠ 0) : scanChildren kids m [] m pre = Except.ok none := by
  induction kids with
  | nil => rfl
  | cons kv others ih =>
      obtain ⟨k, child⟩ := kv
      rw [scanChildren, if_neg hm]
      have hsuf : (descend child []).1 = [] := rfl
      rw [hsuf]
      rw [if_neg (by omega : ¬ (m + List.length [] = m - 1))]
      exact ih

theorem scanChildren_error_iff (kids : List (Char × TrieNode)) :
    ∀ (plen : Nat) (rem : List Char) (vlen : Nat) (pre : List Char),
      scanChildren kids plen rem vlen pre = Except.error () ↔ (vlen = 0 ∧ kids ≠ []) := by
  induction kids with
  | nil =>
      intro plen rem vlen pre
      constructor
      · intro h
        cases h
      · intro h
        exact absurd rfl h.2
  | cons kv others ih =>
      intro plen rem vlen pre
      obtain ⟨k, child⟩ := kv
      by_cases hv : vlen = 0
      · rw [scanChildren, if_pos hv]
        exact ⟨fun _ => ⟨hv, List.cons_ne_nil (k, child) others⟩, fun _ => rfl⟩
      · rw [scanChildren, if_neg hv]
        by_cases hlen : plen + ((descend child rem).1).length = vlen - 1
        · rw [if_pos hlen]
          constructor
          · intro h
            cases h
          · intro h
            exact absurd h.1 hv
        · rw [if_neg hlen, ih]
          constructor
          · intro h
            exact absurd h.1 hv
          · intro h
            exact absurd h.1 hv

theorem scanChildren_ok_some (kids : List (Char × TrieNode)) :
    ∀ (plen : Nat) (rem : List Char) (vlen : Nat) (pre r : List Char),
      scanChildren kids plen rem vlen pre = Except.ok (some r) →
      vlen ≠ 0 ∧ ∃ n : TrieNode, r = pre ++ (descend n rem).1 ∧
        plen + ((descend n rem).1).length = vlen - 1 := by
  induction kids with
  | nil =>
      intro plen rem vlen pre r h
      rw [scanChildren] at h
      cases h
  | cons kv others ih =>
      intro plen rem vlen pre r h
      obtain ⟨k, child⟩ := kv
      by_cases hv : vlen = 0
      · rw [scanChildren, if_pos hv] at h
        cases h
      · rw [scanChildren, if_neg hv] at h
        by_cases hlen : plen + ((descend child rem).1).length = vlen - 1
        · rw [if_pos hlen] at h
          refine ⟨hv, child, ?_, hlen⟩
          have := Option.some_inj.mp (Except.ok.inj h)
          exact this.symm
        · rw [if_neg hlen] at h
          exact ih plen rem vlen pre r h

/-! ### When `contains` fails -/

theorem nodeAt_eq_none_iff (s : List Char) :
    ∀ n : TrieNode, nodeAt n s = none ↔
      ∃ (p : List Char) (c : Char) (rest : List Char), s = p ++ c :: rest ∧
        ∃ m, nodeAt n p = some m ∧ lookupChild m.children c = none := by
  induction s with
  | nil =>
      intro n
      constructor
      · intro h
        cases h
      · rintro ⟨p, c, rest, hs, -⟩
        cases p with
        | nil => cases hs
        | cons b bs => cases hs
  | cons a as ih =>
      intro n
      cases hl : lookupChild n.children a with
      | none =>
          constructor
          · intro _
            exact ⟨[], a, as, rfl, n, rfl, hl⟩
          · intro _
            rw [nodeAt, hl]
      | some child =>
          rw [nodeAt, hl, ih child]
          constructor
          · rintro ⟨p, c, rest, hs, m, hm, hlook⟩
            refine ⟨a :: p, c, rest, by rw [hs, List.cons_append], m, ?_, hlook⟩
            simp only [nodeAt, hl]
            exact hm
          · rintro ⟨p, c, rest, hs, m, hm, hlook⟩
            cases p with
            | nil =>
                obtain ⟨hc, hrest⟩ := List.cons.inj hs
                subst hc
                have hnm : n = m := Option.some_inj.mp hm
                subst hnm
                rw [hl] at hlook
                cases hlook
            | cons b bs =>
                obtain ⟨hb, hrest⟩ := List.cons.inj hs
                subst hb
                simp only [nodeAt, hl] at hm
                exact ⟨bs, c, rest, hrest, m, hm, hlook⟩

/-! ### Claim theorems -/

/-- Claim C1 (code evaluated at the failing input): with only the
seven-character string abcdefg stored, the six-character query abgdef is
reported as a match with common part abdef, although the trie holds no
string of the same length as the query differing in exactly one position;
the second conjunct shows abcdefg is the only stored string. The phase-2
success check is purely length-based and never inspects `leaf`. -/
theorem match_length_only_check_eval :
    (Trie.new.insert ['a', 'b', 'c', 'd', 'e', 'f', 'g']).matchOffByOne
        ['a', 'b', 'g', 'd', 'e', 'f'] = Except.ok (some ['a', 'b', 'd', 'e', 'f']) ∧
    (∀ w v : List Char,
      leafAt (Trie.new.insert ['a', 'b', 'c', 'd', 'e', 'f', 'g']) w = some v →
        w = ['a', 'b', 'c', 'd', 'e', 'f', 'g']) := by
  constructor
  · rfl
  · intro w v h
    rw [leafAt_insert] at h
    by_cases hw : w = ['a', 'b', 'c', 'd', 'e', 'f', 'g']
    · exact hw
    · rw [if_neg hw, leafAt_new] at h
      cases h

/-- Claim C2 counterexample: the empty string was inserted into the trie
(together with the one-character string a), yet `match_off_by_one` on the
empty string does not return None: it reaches the unsigned subtraction
with a zero length and errors (panics in Rust debug builds). -/
theorem exact_match_empty_string_cex :
    ((Trie.new.insert []).insert ['a']).matchOffByOne [] ≠ Except.ok none ∧
    ((Trie.new.insert []).insert ['a']).matchOffByOne [] = Except.error () :=
  ⟨fun h => Except.noConfusion h, rfl⟩

/-- Claim C2 (amended to non-empty strings): for every trie built by a
sequence of insertions and every NON-EMPTY string s among them,
`match_off_by_one(s)` returns None: phase 1 consumes the whole query with
no divergence, so every phase-2 candidate has an empty suffix and the
length check |s| = |s| - 1 fails. -/
theorem exact_match_returns_none (ls : List (List Char)) (s : List Char)
    (hmem : s ∈ ls) (hne : s ≠ []) : (built ls).matchOffByOne s = Except.ok none := by
  obtain ⟨n, hn, -⟩ := leafAt_some_node (built ls) s s (leafAt_built_mem ls s hmem)
  have hdesc : descend (built ls).root s = (s, n) := descend_of_nodeAt s _ n hn
  show scanChildren (descend (built ls).root s).2.children (descend (built ls).root s).1.length
      (s.drop ((descend (built ls).root s).1.length + 1)) s.length (descend (built ls).root s).1
    = Except.ok none
  rw [hdesc]
  show scanChildren n.children s.length (s.drop (s.length + 1)) s.length s = Except.ok none
  rw [List.drop_eq_nil_of_le (by omega : s.length ≤ s.length + 1)]
  exact scanChildren_self n.children s.length s (fun h0 => hne (List.length_eq_zero.mp h0))

/-- Claim C2 witness: a concrete instance of the amended claim. -/
theorem exact_match_returns_none_witness :
    (built [['a']]).matchOffByOne ['a'] = Except.ok none :=
  exact_match_returns_none [['a']] ['a'] (by decide) (by decide)

/-- Claim C3: for every string s inserted (by any insertion sequence that
includes s), `contains(s)` returns a node whose `leaf` field equals s. -/
theorem contains_inserted_terminal (ls : List (List Char)) (s : List Char) (h : s ∈ ls) :
    ∃ n, (built ls).contains s = some n ∧ n.leaf = some s :=
  leafAt_some_node _ s s (leafAt_built_mem ls s h)

/-- Claim C3 witness: a concrete instance. -/
theorem contains_inserted_terminal_witness :
    ∃ n, (built [['a', 'b']]).contains ['a', 'b'] = some n ∧ n.leaf = some ['a', 'b'] :=
  contains_inserted_terminal [['a', 'b']] ['a', 'b'] (by decide)

/-- Claim C4 counterexample: inserting the empty string sets the `leaf` of
the ROOT node to the empty string, so the root terminal is not always
None. -/
theorem root_terminal_empty_insert_cex :
    (Trie.new.insert []).root.leaf = some [] ∧ (Trie.new.insert []).root.leaf ≠ none :=
  ⟨rfl, by decide⟩

/-- Claim C4 (amended to insertion sequences of non-empty strings): the
root `leaf` stays None under every sequence of insertions of non-empty
strings. -/
theorem root_terminal_none_of_nonempty (ls : List (List Char)) (h : ∀ s ∈ ls, s ≠ []) :
    (built ls).root.leaf = none :=
  root_leaf_foldl ls Trie.new h rfl

/-- Claim C4 witness: a concrete instance of the amended claim. -/
theorem root_terminal_none_witness : (built [['a'], ['a', 'b']]).root.leaf = none :=
  root_terminal_none_of_nonempty [['a'], ['a', 'b']] (by decide)

/-- Claim C5 counterexample: on the freshly created trie, `contains` of
the EMPTY string does not return None: it returns the root node (the loop
walks zero edges and returns the current node). -/
theorem contains_empty_on_new_cex :
    Trie.new.contains [] = some Trie.new.root ∧ Trie.new.contains [] ≠ none :=
  ⟨rfl, fun h => Option.noConfusion h⟩

/-- Claim C5 (amended to non-empty queries for `contains`): on the empty
trie, `contains` returns None and `match_off_by_one` returns None for
every non-empty query. -/
theorem new_trie_queries (q : List Char) (h : q ≠ []) :
    Trie.new.contains q = none ∧ Trie.new.matchOffByOne q = Except.ok none := by
  cases q with
  | nil => exact absurd rfl h
  | cons c cs => exact ⟨rfl, rfl⟩

/-- Claim C5 witness: a concrete instance of the amended claim. -/
theorem new_trie_queries_witness :
    Trie.new.contains ['a'] = none ∧ Trie.new.matchOffByOne ['a'] = Except.ok none :=
  new_trie_queries ['a'] (by decide)

/-- Claim C6: insertion is idempotent — inserting the same string twice
yields a trie giving the same `contains` and `match_off_by_one` result as
inserting it once, on every query (in fact the two tries are equal). -/
theorem insert_twice_indistinguishable (t : Trie) (s q : List Char) :
    ((t.insert s).insert s).contains q = (t.insert s).contains q ∧
    ((t.insert s).insert s).matchOffByOne q = (t.insert s).matchOffByOne q := by
  rw [insert_insert]
  exact ⟨rfl, rfl⟩

/-- Claim C7: inserting any further string never removes or rewrites the
terminal of a previously inserted string: `contains` still returns a node
whose `leaf` equals it. -/
theorem insert_keeps_other_terminals (ls : List (List Char)) (w s : List Char) (h : w ∈ ls) :
    ∃ n, ((built ls).insert s).contains w = some n ∧ n.leaf = some w := by
  apply leafAt_some_node _ w w
  rw [leafAt_insert]
  by_cases hw : w = s
  · rw [if_pos hw, hw]
  · rw [if_neg hw]
    exact leafAt_built_mem ls w h

/-- Claim C7 witness: a concrete instance. -/
theorem insert_keeps_other_terminals_witness :
    ∃ n, ((built [['a']]).insert ['b']).contains ['a'] = some n ∧ n.leaf = some ['a'] :=
  insert_keeps_other_terminals [['a']] ['a'] ['b'] (by decide)

/-- Claim C8: `contains(s)` returns None exactly when the walk from the
root hits a missing child edge at some position of s; and after inserting
hello world, `contains(hello)` yields a node (the prefix exists) but the
terminal of that node is not the string hello (it is None). -/
theorem contains_none_iff_missing_edge :
    (∀ (T : Trie) (s : List Char), T.contains s = none ↔
      ∃ (p : List Char) (c : Char) (rest : List Char), s = p ++ c :: rest ∧
        ∃ m, T.contains p = some m ∧ lookupChild m.children c = none) ∧
    (((Trie.new.insert ['h', 'e', 'l', 'l', 'o', ' ', 'w', 'o', 'r', 'l', 'd']).contains
        ['h', 'e', 'l', 'l', 'o']).isSome = true ∧
      leafAt (Trie.new.insert ['h', 'e', 'l', 'l', 'o', ' ', 'w', 'o', 'r', 'l', 'd'])
        ['h', 'e', 'l', 'l', 'o'] = none) :=
  ⟨fun T s => nodeAt_eq_none_iff s T.root, rfl, rfl⟩

/-- Claim C9: whenever `match_off_by_one(query)` returns Some(common),
common is the query with the single character at the phase-1 divergence
position removed — the matched portion before the divergence concatenated
with everything after the skipped position — and its length is
query.length - 1. The value is determined by the query and the divergence
position alone, so it does not depend on the order in which children are
examined. -/
theorem match_success_shape (T : Trie) (q r : List Char)
    (h : T.matchOffByOne q = Except.ok (some r)) :
    r = q.take (descend T.root q).1.length ++ q.drop ((descend T.root q).1.length + 1) ∧
    r.length = q.length - 1 := by
  have h2 : scanChildren (descend T.root q).2.children (descend T.root q).1.length
      (q.drop ((descend T.root q).1.length + 1)) q.length (descend T.root q).1
      = Except.ok (some r) := h
  obtain ⟨hv, n, hr, hlen⟩ := scanChildren_ok_some _ _ _ _ _ _ h2
  set p := (descend T.root q).1.length with hp
  set rem := q.drop (p + 1) with hrem
  set suf := (descend n rem).1 with hsuf
  have hple : p ≤ q.length := descend_fst_length_le q T.root
  have hsle : suf.length ≤ rem.length := by
    rw [hsuf]
    exact descend_fst_length_le rem n
  have hremlen : rem.length = q.length - (p + 1) := by
    rw [hrem]
    exact List.length_drop _ _
  have hq1 : 1 ≤ q.length := Nat.one_le_iff_ne_zero.mpr hv
  have hsuflen : suf.length = rem.length := by omega
  have hsufeq : suf = rem := by
    have htake := descend_fst_take rem n
    rw [← hsuf] at htake
    rw [hsuflen, List.take_length] at htake
    exact htake
  constructor
  · rw [hr, hsufeq]
    have hpre : (descend T.root q).1 = q.take p := by
      rw [hp]
      exact descend_fst_take q T.root
    rw [hpre]
  · rw [hr, List.length_append]
    rw [hsufeq] at hlen
    rw [hsufeq]
    omega

/-- Claim C9 witness: the documented example, trie of abcdef and query
abgdef, instantiating the theorem at its concrete success. -/
theorem match_success_shape_witness :
    (['a', 'b', 'd', 'e', 'f'] : List Char)
        = List.take (descend (Trie.new.insert ['a', 'b', 'c', 'd', 'e', 'f']).root
            ['a', 'b', 'g', 'd', 'e', 'f']).1.length ['a', 'b', 'g', 'd', 'e', 'f']
          ++ List.drop ((descend (Trie.new.insert ['a', 'b', 'c', 'd', 'e', 'f']).root
            ['a', 'b', 'g', 'd', 'e', 'f']).1.length + 1) ['a', 'b', 'g', 'd', 'e', 'f'] ∧
    (['a', 'b', 'd', 'e', 'f'] : List Char).length
        = (['a', 'b', 'g', 'd', 'e', 'f'] : List Char).length - 1 :=
  match_success_shape (Trie.new.insert ['a', 'b', 'c', 'd', 'e', 'f'])
    ['a', 'b', 'g', 'd', 'e', 'f'] ['a', 'b', 'd', 'e', 'f'] (by rfl)

/-- Claim C10: the guarded error branch of the embedding (the unsigned
underflow of val.len() - 1 in the source) is reached exactly when the
query is empty and the root has at least one child: `match_off_by_one`
errors iff the query is the empty string and the trie has at least one
stored edge. -/
theorem match_empty_query_underflow (T : Trie) (q : List Char) :
    T.matchOffByOne q = Except.error () ↔ (q = [] ∧ T.root.children ≠ []) := by
  cases q with
  | nil =>
      constructor
      · intro h
        have h2 : scanChildren T.root.children 0 [] 0 [] = Except.error () := h
        exact ⟨rfl, ((scanChildren_error_iff T.root.children 0 [] 0 []).mp h2).2⟩
      · intro h
        show scanChildren T.root.children 0 [] 0 [] = Except.error ()
        exact (scanChildren_error_iff T.root.children 0 [] 0 []).mpr ⟨rfl, h.2⟩
  | cons c cs =>
      constructor
      · intro h
        have h2 : scanChildren (descend T.root (c :: cs)).2.children
            (descend T.root (c :: cs)).1.length
            ((c :: cs).drop ((descend T.root (c :: cs)).1.length + 1)) (c :: cs).length
            (descend T.root (c :: cs)).1 = Except.error () := h
        have h3 := (scanChildren_error_iff _ _ _ _ _).mp h2
        exact absurd h3.1 (by simp)
      · intro h
        exact absurd h.1 (List.cons_ne_nil c cs)

end TrieLib
